import Mathlib

/-!
Shallow embedding of the tab-assembly and CLI-parsing code of
hdx-scraper-arabstate-viz (src/scrapers/utilities/update_tabs.py and
src/run.py), together with theorems settling the spec claims.

Python cells may hold a string or `None`; a cell is `Option String`.
A table is a list of rows (the first two rows being the plain headers
and the HXL hashtag rows).  An output sink is modelled by its trace:
the list of `update_tab(name, data)` calls it has received.
-/

namespace ArabViz

abbrev Cell := Option String
abbrev Row := List Cell
abbrev Table := List Row
abbrev Trace := List (String × Table)

/-- The fixed header pair for the regional table (update_tabs.py). -/
def regions_headers : List String × List String :=
  (["regionnames"], ["#region+name"])

/-- The fixed header pair for the national table (update_tabs.py). -/
def national_headers : List String × List String :=
  (["iso3", "countryname"], ["#country+code", "#country+name"])

/-- The fixed header pair for the subnational table (update_tabs.py). -/
def subnational_headers : List String × List String :=
  (["iso3", "countryname", "adm1_pcode", "adm1_name"],
   ["#country+code", "#country+name", "#adm1+code", "#adm1+name"])

/-- The fixed header pair for the sources table (update_tabs.py). -/
def sources_headers : Row × Row :=
  ([some "Indicator", some "Date", some "Source", some "Url"],
   [some "#indicator+name", some "#date", some "#meta+source", some "#meta+url"])

/-- `update_tab(outputs, name, data)`: if the data is falsy (empty) return
without touching any sink, otherwise call `output.update_tab(name, data)`
on every sink in the outputs mapping. -/
def update_tab (outputs : List Trace) (name : String) (data : Table) : List Trace :=
  if data.isEmpty then outputs
  else outputs.map (fun t => t ++ [(name, data)])

/-- Character-level split, the semantics of Python `str.split(sep)` for a
one-character separator: splitting the empty text gives `[[]]`, and a
separator occurrence always opens a new (possibly empty) field. -/
def splitChar (sep : Char) : List Char → List (List Char)
  | [] => [[]]
  | c :: cs =>
    match splitChar sep cs with
    | [] => [[]]
    | w :: ws => if c = sep then [] :: w :: ws else (c :: w) :: ws

/-- Python `s.split(sep)` for a one-character separator, on `String`. -/
def strSplit (sep : Char) (s : String) : List String :=
  (splitChar sep s.data).map String.mk

/-- Python `list.index(v)` on a row: the first index holding `v`;
a missing value is a ValueError, modelled as `none`. -/
def indexOfC (v : Cell) : Row → Option Nat
  | [] => none
  | c :: cs => if c = v then some 0 else (indexOfC v cs).map (· + 1)

/-- The inner loop of `update_allregions` on one `ALL` data row of the
regions table: walk the HXL-tag row positionally, skip the `#region+name`
column, and collect the (header, hxltag, value) triple of every other
column, the three components read at the same column index; a read past
the end of the header row or the data row is a Python IndexError,
modelled as failure. -/
def spliceCols : Row → Row → Row → Option (List (Cell × Cell × Cell))
  | [], _, _ => some []
  | tag :: ts, hdrs, row =>
    if tag = some "#region+name" then spliceCols ts hdrs.tail row.tail
    else do
      let h ← hdrs.head?
      let v ← row.head?
      let rest ← spliceCols ts hdrs.tail row.tail
      pure ((h, tag, v) :: rest)

/-- The outer loop of `update_allregions`: collect the triples of every
data row of the regions table whose `#region+name` cell equals `"ALL"`,
in row order. -/
def collectIns (admIdx : Nat) (t1 r0 : Row) : Table → Option (List (Cell × Cell × Cell))
  | [] => some []
  | row :: rest => do
    let key ← row.get? admIdx
    let here ← if key = some "ALL" then spliceCols t1 r0 row else pure []
    let there ← collectIns admIdx t1 r0 rest
    pure (here ++ there)

/-- `update_allregions(outputs, allregions_rows, regions_rows)`: a falsy
(empty) allregions table returns untouched; otherwise, when a regions
table is supplied, the columns of its `ALL` rows other than the
`#region+name` column are prepended to the three allregions rows, and the
result is handed to `update_tab`. -/
def update_allregions (outputs : List Trace) (allregions_rows regions_rows : Table) :
    Option (List Trace × Table) :=
  if allregions_rows.isEmpty then some (outputs, allregions_rows)
  else do
    let newAll ←
      if regions_rows.isEmpty then some allregions_rows
      else do
        let t1 ← regions_rows.get? 1
        let admIdx ← indexOfC (some "#region+name") t1
        let r0 ← regions_rows.get? 0
        let ins ← collectIns admIdx t1 r0 (regions_rows.drop 2)
        let a0 ← allregions_rows.get? 0
        let a1 ← allregions_rows.get? 1
        let a2 ← allregions_rows.get? 2
        pure ([ins.map (·.1) ++ a0, ins.map (·.2.1) ++ a1, ins.map (·.2.2) ++ a2]
          ++ allregions_rows.drop 3)
    pure (update_tab outputs "allregions" newAll, newAll)

/-- The `allregions_values` dictionary of `update_regional`: walking the
allregions header row positionally, a (string) header cell lying in the
allow-list maps to the value-row cell of the same column; a Python dict,
a later assignment to the same header overwriting an earlier one.  A value
read past the end of the value row is an IndexError, modelled as failure. -/
def buildValues (allow : List String) : Row → Row → (String → Option Cell) →
    Option (String → Option Cell)
  | [], _, acc => some acc
  | none :: hs, vs, acc => buildValues allow hs vs.tail acc
  | some hd :: hs, [], acc =>
    if hd ∈ allow then none else buildValues allow hs [] acc
  | some hd :: hs, v :: vtail, acc =>
    if hd ∈ allow then
      buildValues allow hs vtail (fun x => if x = hd then some v else acc x)
    else buildValues allow hs vtail acc

/-- Python `allregions_values.get(header)` through a header cell: a `None`
header is never a key of the dictionary, whose keys are strings. -/
def lookupCell (av : String → Option Cell) : Cell → Option Cell
  | some h => av h
  | none => none

/-- The inner loop of `update_regional` on one sentinel row: walk the
header row positionally; where the dictionary holds a non-None value for
the header, assign it to the cell of the same column (an assignment past
the end of the row is an IndexError, modelled as failure); otherwise the
cell is kept. -/
def spliceRow (av : String → Option Cell) : Row → Row → Option Row
  | [], row => some row
  | hc :: hs, [] =>
    match lookupCell av hc with
    | some (some _) => none
    | _ => spliceRow av hs []
  | hc :: hs, c :: cs =>
    (spliceRow av hs cs).map (fun rest =>
      match lookupCell av hc with
      | some (some s) => some s :: rest
      | _ => c :: rest)

/-- The first half of `update_regional`: the dictionary is built from the
allregions header and value rows only when the allregions table is truthy,
and is empty otherwise. -/
def mkAllValues (allregions_rows : Table) (additional_allregions_headers : List String) :
    Option (String → Option Cell) :=
  if allregions_rows.isEmpty then some (fun _ => none)
  else do
    let a0 ← allregions_rows.get? 0
    let a2 ← allregions_rows.get? 2
    buildValues additional_allregions_headers a0 a2 (fun _ => none)

/-- One data row of `update_regional`'s loop: the row is spliced only when
its `#region+name` cell equals the sentinel `"allregions"`; reading that
cell past the end of the row is an IndexError, modelled as failure. -/
def spliceIfSentinel (av : String → Option Cell) (admIdx : Nat) (r0 : Row) (row : Row) :
    Option Row := do
  let key ← row.get? admIdx
  if key = some "allregions" then spliceRow av r0 row else pure row

/-- Sequential fallible update of the data rows, the first failure
aborting the whole call (the Python exception propagates). -/
def mapRows (f : Row → Option Row) : Table → Option Table
  | [] => some []
  | r :: rs => do
    let r' ← f r
    let rs' ← mapRows f rs
    pure (r' :: rs')

/-- `update_regional(outputs, regional_rows, allregions_rows,
additional_allregions_headers)`: a falsy (empty) regional table returns
untouched; otherwise the allregions values of allow-listed headers are
spliced into the sentinel (`"allregions"`) data rows, matched by plain
header, and the table is handed to `update_tab`. -/
def update_regional (outputs : List Trace) (regional_rows allregions_rows : Table)
    (additional_allregions_headers : List String) : Option (List Trace × Table) :=
  if regional_rows.isEmpty then some (outputs, regional_rows)
  else do
    let av ← mkAllValues allregions_rows additional_allregions_headers
    let r1 ← regional_rows.get? 1
    let admIdx ← indexOfC (some "#region+name") r1
    let r0 ← regional_rows.get? 0
    let newData ← mapRows (spliceIfSentinel av admIdx r0) (regional_rows.drop 2)
    let newRows := regional_rows.take 2 ++ newData
    pure (update_tab outputs "regional" newRows, newRows)

/-- Modelled from the spec: application of a level's identifying-column
functions to one admin key inside the external runner's `get_rows`
(hdx.scraper.runner, not part of this repository's source); a failing
registry lookup is a Python KeyError, modelled as failure. -/
def appFns : List (String → Option Cell) → String → Option (List Cell)
  | [], _ => some []
  | f :: fs, adm => do
    let c ← f adm
    let cs ← appFns fs adm
    pure (c :: cs)

/-- Modelled from the spec: the result of the external runner's
`get_rows` — the assembled table and the admin keys that were logged and
skipped because an identifying lookup failed. -/
structure RowsResult where
  rows : Table
  logged : List String

/-- Modelled from the spec: the data rows of the external runner's
`get_rows`.  For each admin key in order, the identifying columns are
computed; if a lookup fails the key is logged and skipped (a data-quality
signal, not fatal); otherwise the identifying columns are emitted to the
left of one value cell per requested scraper, a scraper's missing value
being an empty cell. -/
def get_rows_data (fns : List (String → Option Cell)) (values : List (String → Cell)) :
    List String → Table × List String
  | [] => ([], [])
  | adm :: rest =>
    match appFns fns adm with
    | some idc =>
      ((idc ++ values.map (fun v => v adm)) :: (get_rows_data fns values rest).1,
        (get_rows_data fns values rest).2)
    | none =>
      ((get_rows_data fns values rest).1, adm :: (get_rows_data fns values rest).2)

/-- Modelled from the spec: the external runner's `get_rows`
(hdx.scraper.runner, absent from src/): two positionally aligned header
rows (the level's identifying headers followed by the requested scrapers'
headers) above one data row per admin key that survives the identifying
lookups. -/
def get_rows (adms : List String) (headers hxltags scraperHeaders scraperTags : List String)
    (fns : List (String → Option Cell)) (values : List (String → Cell)) : RowsResult :=
  let (rs, lg) := get_rows_data fns values adms
  ⟨((headers ++ scraperHeaders).map some) :: ((hxltags ++ scraperTags).map some) :: rs, lg⟩

/-- `update_national(runner, names, countries, outputs)`: the identifying
functions are the identity (ISO3) and the country-name resolution, glued
to the spec-modelled `get_rows`, and the result is handed to
`update_tab`.  `iso3ToName` stands for the external
`Country.get_country_name_from_iso3`, which returns `None` (not an
error) for an unknown code. -/
def update_national (iso3ToName : String → Cell) (countries : List String)
    (values : List (String → Cell)) (scraperHeaders scraperTags : List String)
    (outputs : List Trace) : List Trace × RowsResult :=
  let fns : List (String → Option Cell) :=
    [fun adm => some (some adm), fun adm => some (iso3ToName adm)]
  let res := get_rows countries national_headers.1 national_headers.2
    scraperHeaders scraperTags fns values
  (update_tab outputs "national" res.rows, res)

/-- The admin registry used by `update_subnational`: the pcode list and
the two pcode dictionaries, a missing key being a Python KeyError
(`none`). -/
structure AdminOne where
  pcodes : List String
  pcode_to_iso3 : String → Option String
  pcode_to_name : String → Option String

/-- `update_subnational(runner, names, adminone, outputs)`: four
identifying functions — pcode→ISO3, pcode→country name (through the ISO3),
the identity (pcode), and pcode→name — glued to the spec-modelled
`get_rows`, the result handed to `update_tab`. -/
def update_subnational (adminone : AdminOne) (iso3ToName : String → Cell)
    (values : List (String → Cell)) (scraperHeaders scraperTags : List String)
    (outputs : List Trace) : List Trace × RowsResult :=
  let fns : List (String → Option Cell) :=
    [fun adm => (adminone.pcode_to_iso3 adm).map some,
     fun adm => (adminone.pcode_to_iso3 adm).map (fun iso => iso3ToName iso),
     fun adm => some (some adm),
     fun adm => (adminone.pcode_to_name adm).map some]
  let res := get_rows adminone.pcodes subnational_headers.1 subnational_headers.2
    scraperHeaders scraperTags fns values
  (update_tab outputs "subnational" res.rows, res)

/-- `update_sources(runner, configuration, outputs)`: the two fixed header
rows are prepended to the runner's source rows before `update_tab` is
called. -/
def update_sources (outputs : List Trace) (sources : Table) : List Trace :=
  update_tab outputs "sources" ([sources_headers.1, sources_headers.2] ++ sources)

/-- The auth-string loop of `run.py`'s `__main__` block: for each
comma-separated item, `scraper_name, value = namevalue.split(":")` assigns
into the dict; an item without exactly one colon is a ValueError,
modelled as failure.  The dict is modelled as its lookup function. -/
def build_auths : List String → (String → Option String) → Option (String → Option String)
  | [], acc => some acc
  | it :: rest, acc =>
    match strSplit ':' it with
    | [n, v] => build_auths rest (fun x => if x = n then some v else acc x)
    | _ => none

/-- The full auth parsing of `run.py`: an absent (`None`) or empty auth
string leaves the dict empty (the loop is guarded by the string's
truthiness); otherwise the string is split on commas and each item
processed. -/
def parse_auths : Option String → Option (String → Option String)
  | none => some (fun _ => none)
  | some s =>
    if s = "" then some (fun _ => none)
    else build_auths (strSplit ',' s) (fun _ => none)

/-- The name part of a well-formed `name:value` auth item. -/
def nameOf (it : String) : String := ((strSplit ':' it).get? 0).getD ""

/-- The value part of a well-formed `name:value` auth item. -/
def valOf (it : String) : String := ((strSplit ':' it).get? 1).getD ""

/-- The last element of a list satisfying a predicate, if any; the
characterization of a Python dict built left to right with overwriting. -/
def findLast (p : α → Bool) : List α → Option α
  | [] => none
  | a :: as =>
    match findLast p as with
    | some b => some b
    | none => if p a then some a else none

/-! ### General list helpers -/

theorem tail_get? (l : List α) (i : Nat) : l.tail.get? i = l.get? (i + 1) := by
  cases l <;> rfl

theorem head?_eq_get? (l : List α) : l.head? = l.get? 0 := by
  cases l <;> rfl

theorem get?_of_lt (l : List α) (i : Nat) (h : i < l.length) : ∃ a, l.get? i = some a := by
  induction l generalizing i with
  | nil => exact absurd h (Nat.not_lt_zero i)
  | cons a as ih =>
    cases i with
    | zero => exact ⟨a, rfl⟩
    | succ j => exact ih j (Nat.lt_of_succ_lt_succ h)

/-! ### Theorems about the sink fan-out (`update_tab`) -/

/-- C2: a tab whose assembled data is empty (falsy) is never dispatched:
`update_tab` returns with every sink's trace exactly as it was. -/
theorem update_tab_empty_untouched (outputs : List Trace) (name : String) :
    update_tab outputs name [] = outputs := rfl

/-- C5: for a non-empty assembled tab, `update_tab` performs exactly one
`update_tab(name, data)` call on every sink of the outputs mapping, with
the identical name and data, uniformly over the sinks. -/
theorem update_tab_fanout (outputs : List Trace) (name : String) (data : Table)
    (h : data ≠ []) :
    update_tab outputs name data = outputs.map (fun t => t ++ [(name, data)]) := by
  cases data with
  | nil => exact absurd rfl h
  | cons r rs => rfl

/-- Witness for C5 at a concrete two-sink output set and one data row. -/
theorem update_tab_fanout_witness :
    update_tab [[], [("t", [])]] "x" [[some "a"]] =
      [[("x", [[some "a"]])], [("t", []), ("x", [[some "a"]])]] :=
  update_tab_fanout [[], [("t", [])]] "x" [[some "a"]] (by decide)

/-- C8: `update_sources` always dispatches the sources tab to every sink,
even for zero source rows, because the two fixed header rows are prepended
before the emptiness check. -/
theorem update_sources_always_dispatch (outputs : List Trace) (sources : Table) :
    update_sources outputs sources =
      outputs.map (fun t =>
        t ++ [("sources", [sources_headers.1, sources_headers.2] ++ sources)]) := rfl

/-! ### Theorems about the auth-string parsing (`run.py` `__main__`) -/

theorem findLast_eq_some (p : α → Bool) (l : List α) (a : α)
    (h : findLast p l = some a) : a ∈ l ∧ p a = true := by
  induction l with
  | nil => simp [findLast] at h
  | cons b bs ih =>
    rw [findLast] at h
    cases hbs : findLast p bs with
    | some c =>
      rw [hbs] at h
      simp only [Option.some.injEq] at h
      subst h
      obtain ⟨hmem, hp⟩ := ih hbs
      exact ⟨List.mem_cons_of_mem _ hmem, hp⟩
    | none =>
      rw [hbs] at h
      by_cases hb : p b = true
      · simp only [hb, if_true, Option.some.injEq] at h
        subst h
        exact ⟨List.mem_cons_self _ _, hb⟩
      · simp [hb] at h

theorem findLast_isSome (p : α → Bool) (l : List α) (a : α)
    (hmem : a ∈ l) (hp : p a = true) : (findLast p l).isSome = true := by
  induction l with
  | nil => cases hmem
  | cons b bs ih =>
    rw [findLast]
    cases hbs : findLast p bs with
    | some c => rfl
    | none =>
      rcases List.mem_cons.1 hmem with rfl | hmem'
      · simp [hp]
      · rw [← hbs]
        exact absurd (ih hmem') (by simp [hbs])

theorem build_auths_total (items : List String)
    (h : ∀ it ∈ items, (strSplit ':' it).length = 2) :
    ∀ acc, ∃ m, build_auths items acc = some m := by
  induction items with
  | nil => exact fun acc => ⟨acc, rfl⟩
  | cons it rest ih =>
    intro acc
    have h2 : (strSplit ':' it).length = 2 := h it (List.mem_cons_self _ _)
    rcases hs : strSplit ':' it with _ | ⟨n, _ | ⟨v, _ | ⟨w, tl⟩⟩⟩
    · rw [hs] at h2; cases h2
    · rw [hs] at h2; cases h2
    · obtain ⟨m, hm⟩ := ih (fun j hj => h j (List.mem_cons_of_mem _ hj))
        (fun x => if x = n then some v else acc x)
      exact ⟨m, by rw [build_auths, hs]; exact hm⟩
    · rw [hs] at h2; simp at h2

theorem build_auths_lookup (items : List String) (acc : String → Option String)
    (m : String → Option String) (hm : build_auths items acc = some m) (x : String) :
    m x = match findLast (fun it => nameOf it == x) items with
      | some jt => some (valOf jt)
      | none => acc x := by
  induction items generalizing acc with
  | nil =>
    rw [build_auths] at hm
    cases hm
    rfl
  | cons it rest ih =>
    rw [build_auths] at hm
    rcases hs : strSplit ':' it with _ | ⟨n, _ | ⟨v, _ | ⟨w, tl⟩⟩⟩ <;> rw [hs] at hm
    · cases hm
    · cases hm
    · have hx := ih _ hm
      have hname : nameOf it = n := by simp [nameOf, hs]
      have hval : valOf it = v := by simp [valOf, hs]
      rw [findLast]
      cases hrest : findLast (fun jt => nameOf jt == x) rest with
      | some jt => rw [hrest] at hx; exact hx
      | none =>
        rw [hrest] at hx
        rw [hname]
        cases hb : (n == x) with
        | true =>
          have hxn : x = n := (eq_of_beq hb).symm
          subst hxn
          simp only [hb]
          simpa [hval] using hx
        | false =>
          have hxn : ¬x = n := fun hcon => by simp [hcon] at hb
          simp only [hb]
          simpa [hxn] using hx
    · cases hm

/-- C7: an absent or empty auth string yields the empty map; an auth
string whose comma-separated items each hold exactly one colon is parsed
into a map defined exactly on the item names, sending each name to the
value of one of its items. -/
theorem parse_auths_wellformed :
    (parse_auths none = some (fun _ => none) ∧
      parse_auths (some "") = some (fun _ => none)) ∧
    ∀ s : String, (∀ it ∈ strSplit ',' s, (strSplit ':' it).length = 2) →
      ∃ m, parse_auths (some s) = some m ∧
        (∀ n : String, (m n).isSome = true ↔ n ∈ (strSplit ',' s).map nameOf) ∧
        (∀ it ∈ strSplit ',' s, ∃ jt ∈ strSplit ',' s,
          nameOf jt = nameOf it ∧ m (nameOf it) = some (valOf jt)) := by
  refine ⟨⟨rfl, rfl⟩, ?_⟩
  intro s h
  have hse : s ≠ "" := by
    intro hs
    subst hs
    exact absurd (h "" (by decide)) (by decide)
  obtain ⟨m, hm⟩ := build_auths_total (strSplit ',' s) h (fun _ => none)
  refine ⟨m, by simp [parse_auths, hse, hm], ?_, ?_⟩
  · intro n
    have hx := build_auths_lookup _ _ _ hm n
    constructor
    · intro hsome
      cases hrest : findLast (fun it => nameOf it == n) (strSplit ',' s) with
      | some jt =>
        obtain ⟨hmem, hp⟩ := findLast_eq_some _ _ _ hrest
        exact List.mem_map.2 ⟨jt, hmem, by simpa using hp⟩
      | none => rw [hrest] at hx; rw [hx] at hsome; cases hsome
    · intro hmem
      obtain ⟨it, hit, hname⟩ := List.mem_map.1 hmem
      have := findLast_isSome (fun jt => nameOf jt == n) _ it hit (by simp [hname])
      cases hrest : findLast (fun jt => nameOf jt == n) (strSplit ',' s) with
      | some jt => rw [hrest] at hx; rw [hx]; rfl
      | none => rw [hrest] at this; cases this
  · intro it hit
    have hself := findLast_isSome (fun jt => nameOf jt == nameOf it) _ it hit (by simp)
    cases hrest : findLast (fun jt => nameOf jt == nameOf it) (strSplit ',' s) with
    | none => rw [hrest] at hself; cases hself
    | some jt =>
      obtain ⟨hmem, hp⟩ := findLast_eq_some _ _ _ hrest
      have hx := build_auths_lookup _ _ _ hm (nameOf it)
      rw [hrest] at hx
      exact ⟨jt, hmem, by simpa using hp, hx⟩

/-- Witness for C7 at the concrete auth string `"a:1,b:2"`. -/
theorem parse_auths_wellformed_witness :
    ∃ m, parse_auths (some "a:1,b:2") = some m ∧
      (∀ n : String, (m n).isSome = true ↔ n ∈ (strSplit ',' "a:1,b:2").map nameOf) ∧
      (∀ it ∈ strSplit ',' "a:1,b:2", ∃ jt ∈ strSplit ',' "a:1,b:2",
        nameOf jt = nameOf it ∧ m (nameOf it) = some (valOf jt)) :=
  parse_auths_wellformed.2 "a:1,b:2" (by decide)

/-- C9: the auth parsing is partial — an item without exactly one colon
(e.g. `"name"`, or `"n:v:w"`) makes the two-way unpacking fail, aborting
the program; when every item holds exactly one colon this failure is
unreachable. -/
theorem parse_auths_partial :
    parse_auths (some "name") = none ∧ parse_auths (some "n:v:w") = none ∧
    ∀ s : String, (∀ it ∈ strSplit ',' s, (strSplit ':' it).length = 2) →
      (parse_auths (some s)).isSome = true := by
  refine ⟨rfl, rfl, ?_⟩
  intro s h
  have hse : s ≠ "" := by
    intro hs
    subst hs
    exact absurd (h "" (by decide)) (by decide)
  obtain ⟨m, hm⟩ := build_auths_total (strSplit ',' s) h (fun _ => none)
  simp [parse_auths, hse, hm]

/-- Witness for C9 at the concrete well-formed auth string `"x:1"`. -/
theorem parse_auths_partial_witness : (parse_auths (some "x:1")).isSome = true :=
  parse_auths_partial.2.2 "x:1" (by decide)

/-! ### Theorems about the spec-modelled runner rows (national, subnational) -/

theorem get_rows_data_logged (fns : List (String → Option Cell))
    (values : List (String → Cell)) (adms : List String) (adm : String)
    (hmem : adm ∈ adms) (hfail : appFns fns adm = none) :
    adm ∈ (get_rows_data fns values adms).2 := by
  induction adms with
  | nil => cases hmem
  | cons a rest ih =>
    rcases List.mem_cons.1 hmem with rfl | hmem'
    · rw [get_rows_data, hfail]
      exact List.mem_cons_self _ _
    · rw [get_rows_data]
      cases happ : appFns fns a with
      | some idc => exact ih hmem'
      | none => exact List.mem_cons_of_mem _ (ih hmem')

theorem get_rows_data_rows (fns : List (String → Option Cell))
    (values : List (String → Cell)) (adms : List String) (row : Row)
    (hrow : row ∈ (get_rows_data fns values adms).1) :
    ∃ adm ∈ adms, ∃ idc, appFns fns adm = some idc ∧
      row = idc ++ values.map (fun v => v adm) := by
  induction adms with
  | nil => cases hrow
  | cons a rest ih =>
    rw [get_rows_data] at hrow
    cases happ : appFns fns a with
    | some idc =>
      rw [happ] at hrow
      rcases List.mem_cons.1 hrow with heq | hmem'
      · exact ⟨a, List.mem_cons_self _ _, idc, happ, heq⟩
      · obtain ⟨adm, hadm, idc', h1, h2⟩ := ih hmem'
        exact ⟨adm, List.mem_cons_of_mem _ hadm, idc', h1, h2⟩
    | none =>
      rw [happ] at hrow
      obtain ⟨adm, hadm, idc', h1, h2⟩ := ih hrow
      exact ⟨adm, List.mem_cons_of_mem _ hadm, idc', h1, h2⟩

theorem get_rows_data_emit (fns : List (String → Option Cell))
    (values : List (String → Cell)) (adms : List String) (adm : String)
    (hmem : adm ∈ adms) (idc : List Cell) (hok : appFns fns adm = some idc) :
    (idc ++ values.map (fun v => v adm)) ∈ (get_rows_data fns values adms).1 := by
  induction adms with
  | nil => cases hmem
  | cons a rest ih =>
    rw [get_rows_data]
    rcases List.mem_cons.1 hmem with rfl | hmem'
    · rw [hok]
      exact List.mem_cons_self _ _
    · cases happ : appFns fns a with
      | some idc' => exact List.mem_cons_of_mem _ (ih hmem')
      | none => exact ih hmem'

theorem get_rows_data_national (iso3ToName : String → Cell)
    (values : List (String → Cell)) (countries : List String) :
    get_rows_data [fun a => some (some a), fun a => some (iso3ToName a)] values countries =
      (countries.map (fun c => some c :: iso3ToName c :: values.map (fun v => v c)), []) := by
  induction countries with
  | nil => rfl
  | cons c cs ih => simp [get_rows_data, ih, appFns]

/-- C4: every national data row starts with the ISO3 cell and then the
resolved country-name cell, to the left of one value cell per requested
scraper; every country of the input list yields a row, in order, a
scraper's missing value being an empty (`none`) cell rather than a
missing column; no country is skipped. -/
theorem update_national_rows_shape (iso3ToName : String → Cell) (countries : List String)
    (values : List (String → Cell)) (scraperHeaders scraperTags : List String)
    (outputs : List Trace) :
    (update_national iso3ToName countries values scraperHeaders scraperTags outputs).2.rows =
      ((national_headers.1 ++ scraperHeaders).map some) ::
        ((national_headers.2 ++ scraperTags).map some) ::
        countries.map (fun c => some c :: iso3ToName c :: values.map (fun v => v c)) ∧
    (update_national iso3ToName countries values scraperHeaders scraperTags outputs).2.logged
      = [] := by
  constructor
  · simp [update_national, get_rows, get_rows_data_national]
  · simp [update_national, get_rows, get_rows_data_national]

theorem appFns_subnational (adminone : AdminOne) (iso3ToName : String → Cell) (q : String) :
    appFns [fun adm => (adminone.pcode_to_iso3 adm).map some,
      fun adm => (adminone.pcode_to_iso3 adm).map (fun iso => iso3ToName iso),
      fun adm => some (some adm),
      fun adm => (adminone.pcode_to_name adm).map some] q =
    match adminone.pcode_to_iso3 q, adminone.pcode_to_name q with
    | some i3, some pn => some [some i3, iso3ToName i3, some q, some pn]
    | _, _ => none := by
  cases h1 : adminone.pcode_to_iso3 q <;> cases h2 : adminone.pcode_to_name q <;>
    simp [appFns, h1, h2]

/-- C3: during subnational assembly, a pcode absent from the registry's
pcode table is logged and excluded from the output rows (no data row
carries it in the `adm1_pcode` column), and every remaining pcode is
still processed — either logged in turn or emitted as a data row — the
call never failing. -/
theorem update_subnational_missing_pcode (adminone : AdminOne) (iso3ToName : String → Cell)
    (values : List (String → Cell)) (scraperHeaders scraperTags : List String)
    (outputs : List Trace) (p : String) (hp : p ∈ adminone.pcodes)
    (hmiss : adminone.pcode_to_iso3 p = none) :
    p ∈ (update_subnational adminone iso3ToName values scraperHeaders scraperTags
        outputs).2.logged ∧
    (∀ row ∈ (update_subnational adminone iso3ToName values scraperHeaders scraperTags
        outputs).2.rows.drop 2, row.get? 2 ≠ some (some p)) ∧
    (∀ q ∈ adminone.pcodes,
      q ∈ (update_subnational adminone iso3ToName values scraperHeaders scraperTags
          outputs).2.logged ∨
      ∃ row ∈ (update_subnational adminone iso3ToName values scraperHeaders scraperTags
          outputs).2.rows.drop 2, row.get? 2 = some (some q)) := by
  have hrows : (update_subnational adminone iso3ToName values scraperHeaders scraperTags
      outputs).2.rows.drop 2 =
      (get_rows_data [fun adm => (adminone.pcode_to_iso3 adm).map some,
        fun adm => (adminone.pcode_to_iso3 adm).map (fun iso => iso3ToName iso),
        fun adm => some (some adm),
        fun adm => (adminone.pcode_to_name adm).map some] values adminone.pcodes).1 := by
    simp [update_subnational, get_rows]
  have hlog : (update_subnational adminone iso3ToName values scraperHeaders scraperTags
      outputs).2.logged =
      (get_rows_data [fun adm => (adminone.pcode_to_iso3 adm).map some,
        fun adm => (adminone.pcode_to_iso3 adm).map (fun iso => iso3ToName iso),
        fun adm => some (some adm),
        fun adm => (adminone.pcode_to_name adm).map some] values adminone.pcodes).2 := by
    simp [update_subnational, get_rows]
  refine ⟨?_, ?_, ?_⟩
  · rw [hlog]
    refine get_rows_data_logged _ _ _ _ hp ?_
    rw [appFns_subnational, hmiss]
  · intro row hrow
    rw [hrows] at hrow
    obtain ⟨q, hq, idc, hok, rfl⟩ := get_rows_data_rows _ _ _ _ hrow
    rw [appFns_subnational] at hok
    cases h1 : adminone.pcode_to_iso3 q with
    | none => rw [h1] at hok; cases hok
    | some i3 =>
      cases h2 : adminone.pcode_to_name q with
      | none => rw [h1, h2] at hok; cases hok
      | some pn =>
        rw [h1, h2] at hok
        cases hok
        intro hcon
        simp only [List.cons_append, List.get?, Option.some.injEq] at hcon
        rw [hcon] at h1
        rw [h1] at hmiss
        cases hmiss
  · intro q hq
    cases hok : appFns [fun adm => (adminone.pcode_to_iso3 adm).map some,
        fun adm => (adminone.pcode_to_iso3 adm).map (fun iso => iso3ToName iso),
        fun adm => some (some adm),
        fun adm => (adminone.pcode_to_name adm).map some] q with
    | none =>
      left
      rw [hlog]
      exact get_rows_data_logged _ _ _ _ hq hok
    | some idc =>
      right
      refine ⟨idc ++ values.map (fun v => v q), ?_, ?_⟩
      · rw [hrows]
        exact get_rows_data_emit _ _ _ _ hq _ hok
      · rw [appFns_subnational] at hok
        cases h1 : adminone.pcode_to_iso3 q with
        | none => rw [h1] at hok; cases hok
        | some i3 =>
          cases h2 : adminone.pcode_to_name q with
          | none => rw [h1, h2] at hok; cases hok
          | some pn =>
            rw [h1, h2] at hok
            cases hok
            rfl

/-- Witness for C3 at a concrete two-pcode registry whose table misses
`"P1"`. -/
theorem update_subnational_missing_pcode_witness :
    "P1" ∈ (update_subnational ⟨["P1", "P2"],
        (fun p => if p = "P2" then some "ABC" else none),
        (fun p => if p = "P2" then some "PName" else none)⟩
        (fun i => if i = "ABC" then some "Abcland" else none)
        [] [] [] [[]]).2.logged ∧
    (∀ row ∈ (update_subnational ⟨["P1", "P2"],
        (fun p => if p = "P2" then some "ABC" else none),
        (fun p => if p = "P2" then some "PName" else none)⟩
        (fun i => if i = "ABC" then some "Abcland" else none)
        [] [] [] [[]]).2.rows.drop 2, row.get? 2 ≠ some (some "P1")) ∧
    (∀ q ∈ (⟨["P1", "P2"],
        (fun p => if p = "P2" then some "ABC" else none),
        (fun p => if p = "P2" then some "PName" else none)⟩ : AdminOne).pcodes,
      q ∈ (update_subnational ⟨["P1", "P2"],
          (fun p => if p = "P2" then some "ABC" else none),
          (fun p => if p = "P2" then some "PName" else none)⟩
          (fun i => if i = "ABC" then some "Abcland" else none)
          [] [] [] [[]]).2.logged ∨
      ∃ row ∈ (update_subnational ⟨["P1", "P2"],
          (fun p => if p = "P2" then some "ABC" else none),
          (fun p => if p = "P2" then some "PName" else none)⟩
          (fun i => if i = "ABC" then some "Abcland" else none)
          [] [] [] [[]]).2.rows.drop 2, row.get? 2 = some (some q)) :=
  update_subnational_missing_pcode _ _ _ _ _ _ "P1" (by decide) (by decide)

/-! ### Theorems about `update_regional` -/

theorem buildValues_not_allowed (allow : List String) (hcells vs : Row)
    (acc av : String → Option Cell) (h : buildValues allow hcells vs acc = some av)
    (s : String) (hns : s ∉ allow) : av s = acc s := by
  induction hcells generalizing vs acc with
  | nil =>
    rw [buildValues] at h
    cases h
    rfl
  | cons hc ht ih =>
    cases hc with
    | none =>
      rw [buildValues] at h
      exact ih _ _ h
    | some hd =>
      cases vs with
      | nil =>
        rw [buildValues] at h
        by_cases hmem : hd ∈ allow
        · rw [if_pos hmem] at h
          cases h
        · rw [if_neg hmem] at h
          exact ih _ _ h
      | cons v vt =>
        rw [buildValues] at h
        by_cases hmem : hd ∈ allow
        · rw [if_pos hmem] at h
          have hsne : ¬s = hd := fun hcon => hns (hcon ▸ hmem)
          have hx := ih vt (fun x => if x = hd then some v else acc x) h
          rw [hx]
          simp [hsne]
        · rw [if_neg hmem] at h
          exact ih _ _ h

theorem mkAllValues_not_allowed (ar : Table) (allow : List String)
    (av : String → Option Cell) (h : mkAllValues ar allow = some av)
    (s : String) (hns : s ∉ allow) : av s = none := by
  unfold mkAllValues at h
  by_cases he : ar.isEmpty
  · rw [if_pos he] at h
    cases h
    rfl
  · rw [if_neg he] at h
    cases h0 : ar.get? 0 with
    | none =>
      rw [h0] at h
      replace h : (none : Option (String → Option Cell)) = some av := h
      cases h
    | some a0 =>
      rw [h0] at h
      cases h2 : ar.get? 2 with
      | none =>
        rw [h2] at h
        replace h : (none : Option (String → Option Cell)) = some av := h
        cases h
      | some a2 =>
        rw [h2] at h
        replace h : buildValues allow a0 a2 (fun _ => none) = some av := h
        exact buildValues_not_allowed _ _ _ _ _ h s hns

theorem spliceRow_nil (av : String → Option Cell) (hdrs : Row) (out : Row)
    (h : spliceRow av hdrs [] = some out) : out = [] := by
  induction hdrs with
  | nil =>
    rw [spliceRow] at h
    cases h
    rfl
  | cons hc hs ih =>
    rw [spliceRow] at h
    rcases hl : lookupCell av hc with _ | _ | s
    · rw [hl] at h
      exact ih h
    · rw [hl] at h
      exact ih h
    · rw [hl] at h
      cases h

theorem spliceRow_frame (av : String → Option Cell) (hdrs row out : Row)
    (h : spliceRow av hdrs row = some out) :
    out.length = row.length ∧
    ∀ i : Nat, (∀ s : String, hdrs.get? i = some (some s) → ∀ u, av s ≠ some (some u)) →
      out.get? i = row.get? i := by
  induction hdrs generalizing row out with
  | nil =>
    rw [spliceRow] at h
    cases h
    exact ⟨rfl, fun _ _ => rfl⟩
  | cons hc hs ih =>
    cases row with
    | nil =>
      have hout : out = [] := spliceRow_nil av (hc :: hs) out h
      subst hout
      exact ⟨rfl, fun i _ => rfl⟩
    | cons c cs =>
      rw [spliceRow, Option.map_eq_some'] at h
      obtain ⟨rest, hrest, hout⟩ := h
      obtain ⟨hlen, hget⟩ := ih cs rest hrest
      rcases hl : lookupCell av hc with _ | _ | s
      · rw [hl] at hout
        subst hout
        refine ⟨by simp [hlen], ?_⟩
        intro i hcond
        cases i with
        | zero => rfl
        | succ j => exact hget j hcond
      · rw [hl] at hout
        subst hout
        refine ⟨by simp [hlen], ?_⟩
        intro i hcond
        cases i with
        | zero => rfl
        | succ j => exact hget j hcond
      · rw [hl] at hout
        subst hout
        refine ⟨by simp [hlen], ?_⟩
        intro i hcond
        cases i with
        | zero =>
          exfalso
          cases hc with
          | none => rw [lookupCell] at hl; cases hl
          | some hd => exact hcond hd rfl s (by rw [← hl, lookupCell])
        | succ j => exact hget j hcond

theorem mapRows_get (f : Row → Option Row) (l l' : Table) (h : mapRows f l = some l') :
    l'.length = l.length ∧
    ∀ j a b, l.get? j = some a → l'.get? j = some b → f a = some b := by
  induction l generalizing l' with
  | nil =>
    rw [mapRows] at h
    cases h
    exact ⟨rfl, fun j a b ha => by cases ha⟩
  | cons r rs ih =>
    rw [mapRows] at h
    cases hr : f r with
    | none =>
      rw [hr] at h
      replace h : (none : Option Table) = some l' := h
      cases h
    | some r' =>
      rw [hr] at h
      replace h : (mapRows f rs).bind (fun rs' => some (r' :: rs')) = some l' := h
      cases hrs : mapRows f rs with
      | none =>
        rw [hrs] at h
        replace h : (none : Option Table) = some l' := h
        cases h
      | some rs' =>
        rw [hrs] at h
        replace h : some (r' :: rs') = some l' := h
        cases h
        obtain ⟨hlen, hget⟩ := ih rs' hrs
        refine ⟨by simp [hlen], ?_⟩
        intro j a b ha hb
        cases j with
        | zero =>
          cases ha
          cases hb
          exact hr
        | succ k => exact hget k a b ha hb

theorem update_regional_parts (outputs : List Trace) (r0 r1 : Row) (rest : Table)
    (ar : Table) (allow : List String) (outs : List Trace) (nr : Table)
    (hup : update_regional outputs (r0 :: r1 :: rest) ar allow = some (outs, nr)) :
    ∃ av admIdx newData,
      mkAllValues ar allow = some av ∧
      indexOfC (some "#region+name") r1 = some admIdx ∧
      mapRows (spliceIfSentinel av admIdx r0) rest = some newData ∧
      nr = r0 :: r1 :: newData := by
  unfold update_regional at hup
  rw [if_neg (by simp : ¬(((r0 :: r1 :: rest) : Table).isEmpty = true))] at hup
  cases hav : mkAllValues ar allow with
  | none =>
    rw [hav] at hup
    replace hup : (none : Option (List Trace × Table)) = some (outs, nr) := hup
    cases hup
  | some av =>
    rw [hav] at hup
    replace hup : (indexOfC (some "#region+name") r1).bind (fun admIdx =>
        (mapRows (spliceIfSentinel av admIdx r0) rest).bind (fun newData =>
          some (update_tab outputs "regional" (r0 :: r1 :: newData),
            r0 :: r1 :: newData))) = some (outs, nr) := hup
    cases hidx : indexOfC (some "#region+name") r1 with
    | none =>
      rw [hidx] at hup
      replace hup : (none : Option (List Trace × Table)) = some (outs, nr) := hup
      cases hup
    | some admIdx =>
      rw [hidx] at hup
      replace hup : (mapRows (spliceIfSentinel av admIdx r0) rest).bind (fun newData =>
          some (update_tab outputs "regional" (r0 :: r1 :: newData),
            r0 :: r1 :: newData)) = some (outs, nr) := hup
      cases hmap : mapRows (spliceIfSentinel av admIdx r0) rest with
      | none =>
        rw [hmap] at hup
        replace hup : (none : Option (List Trace × Table)) = some (outs, nr) := hup
        cases hup
      | some newData =>
        rw [hmap] at hup
        replace hup : some (update_tab outputs "regional" (r0 :: r1 :: newData),
            r0 :: r1 :: newData) = some (outs, nr) := hup
        injection hup with hpair
        exact ⟨av, admIdx, newData, rfl, rfl, hmap,
          (congrArg Prod.snd hpair).symm⟩

/-- C1 is false as stated: with allow-list `["val"]`, the sentinel-row
cell of the column whose plain header is `"val"` but whose HXL tag is
`"#other"` changes from `"0"` to `"7"`, although `"#other"` is not in the
allow-list — the splice matches the allow-list against plain headers (row
0), not HXL tags (row 1). -/
theorem update_regional_tag_allowlist_cex :
    update_regional [[]]
      [[some "regionnames", some "val"], [some "#region+name", some "#other"],
       [some "allregions", some "0"]]
      [[some "val"], [some "#val"], [some "7"]] ["val"] =
      some ([[("regional",
        [[some "regionnames", some "val"], [some "#region+name", some "#other"],
         [some "allregions", some "7"]])]],
        [[some "regionnames", some "val"], [some "#region+name", some "#other"],
         [some "allregions", some "7"]]) ∧
    ([[some "regionnames", some "val"], [some "#region+name", some "#other"],
      [some "allregions", some "0"]].get? 2).bind (fun r => r.get? 1) = some (some "0") ∧
    ([[some "regionnames", some "val"], [some "#region+name", some "#other"],
      [some "allregions", some "7"]].get? 2).bind (fun r => r.get? 1) = some (some "7") ∧
    ([[some "regionnames", some "val"], [some "#region+name", some "#other"],
      [some "allregions", some "0"]].get? 1).bind (fun r => r.get? 1) =
      some (some "#other") ∧
    "#other" ∉ ["val"] ∧ (some "0" : Cell) ≠ some "7" :=
  ⟨rfl, rfl, rfl, rfl, by decide, by decide⟩

/-- C1 (amended): `update_regional` modifies only cells of sentinel
(`"allregions"`) data rows whose column's plain header (row 0 entry) lies
in `additional_allregions_headers`; the header rows, every non-sentinel
data row, and every sentinel-row cell of a column whose header is not
allow-listed keep their value, and no row changes length. -/
theorem update_regional_header_frame (outputs : List Trace) (r0 r1 : Row) (rest : Table)
    (allregions_rows : Table) (allow : List String) (outs : List Trace) (nr : Table)
    (hup : update_regional outputs (r0 :: r1 :: rest) allregions_rows allow =
      some (outs, nr)) :
    ∃ admIdx newRest,
      indexOfC (some "#region+name") r1 = some admIdx ∧
      nr = r0 :: r1 :: newRest ∧ newRest.length = rest.length ∧
      ∀ j old new, rest.get? j = some old → newRest.get? j = some new →
        new.length = old.length ∧
        (old.get? admIdx ≠ some (some "allregions") → new = old) ∧
        (∀ i : Nat, (∀ s : String, r0.get? i = some (some s) → s ∉ allow) →
          new.get? i = old.get? i) := by
  obtain ⟨av, admIdx, newData, hav, hidx, hmap, hnr⟩ :=
    update_regional_parts _ _ _ _ _ _ _ _ hup
  obtain ⟨hlen, hget⟩ := mapRows_get _ _ _ hmap
  refine ⟨admIdx, newData, hidx, hnr, hlen, ?_⟩
  intro j old new hold hnew
  have hf := hget j old new hold hnew
  unfold spliceIfSentinel at hf
  cases hkey : old.get? admIdx with
  | none =>
    rw [hkey] at hf
    replace hf : (none : Option Row) = some new := hf
    cases hf
  | some key =>
    rw [hkey] at hf
    replace hf : (if key = some "allregions" then spliceRow av r0 old else pure old) =
        some new := hf
    by_cases hsent : key = some "allregions"
    · rw [if_pos hsent] at hf
      obtain ⟨hlen2, hfr⟩ := spliceRow_frame av r0 old new hf
      refine ⟨hlen2, ?_, ?_⟩
      · intro hns
        exact absurd (by rw [hsent]) hns
      · intro i hcol
        refine hfr i ?_
        intro s hs u hcontra
        have hnone : av s = none := mkAllValues_not_allowed _ _ _ hav s (hcol s hs)
        rw [hnone] at hcontra
        cases hcontra
    · rw [if_neg hsent] at hf
      replace hf : some old = some new := hf
      cases hf
      exact ⟨rfl, fun _ => rfl, fun i _ => rfl⟩

/-- Witness for the amended C1 at a concrete regional table with one
sentinel row. -/
theorem update_regional_header_frame_witness :
    ∃ admIdx newRest,
      indexOfC (some "#region+name") [some "#region+name", some "#other"] = some admIdx ∧
      [[some "regionnames", some "val"], [some "#region+name", some "#other"],
        [some "allregions", some "7"]] =
        [some "regionnames", some "val"] :: [some "#region+name", some "#other"] ::
          newRest ∧
      newRest.length = [[some "allregions", some "0"]].length ∧
      ∀ j old new, [[some "allregions", some "0"]].get? j = some old →
        newRest.get? j = some new →
        new.length = old.length ∧
        (old.get? admIdx ≠ some (some "allregions") → new = old) ∧
        (∀ i : Nat, (∀ s : String,
            [some "regionnames", some "val"].get? i = some (some s) → s ∉ ["val"]) →
          new.get? i = old.get? i) :=
  update_regional_header_frame [[]] [some "regionnames", some "val"]
    [some "#region+name", some "#other"] [[some "allregions", some "0"]]
    [[some "val"], [some "#val"], [some "7"]] ["val"]
    [[("regional",
      [[some "regionnames", some "val"], [some "#region+name", some "#other"],
       [some "allregions", some "7"]])]]
    [[some "regionnames", some "val"], [some "#region+name", some "#other"],
     [some "allregions", some "7"]] rfl

/-- C10: a `None` all-regions value recorded for an allow-listed header
is never spliced — the sentinel-row cell of that header's column keeps
its prior value in every data row. -/
theorem update_regional_none_preserved (outputs : List Trace) (r0 r1 : Row) (rest : Table)
    (a0 a1 a2 : Row) (arest : Table) (allow : List String)
    (av : String → Option Cell) (outs : List Trace) (nr : Table)
    (hav : buildValues allow a0 a2 (fun _ => none) = some av)
    (hup : update_regional outputs (r0 :: r1 :: rest) (a0 :: a1 :: a2 :: arest) allow =
      some (outs, nr))
    (hdr : String) (i : Nat) (hh : r0.get? i = some (some hdr)) (hmem : hdr ∈ allow)
    (hv : av hdr = some none) :
    ∃ newRest, nr = r0 :: r1 :: newRest ∧
      ∀ j old new, rest.get? j = some old → newRest.get? j = some new →
        new.get? i = old.get? i := by
  obtain ⟨av', admIdx, newData, hav', hidx, hmap, hnr⟩ :=
    update_regional_parts _ _ _ _ _ _ _ _ hup
  have hsame : av' = av := by
    unfold mkAllValues at hav'
    rw [if_neg (by simp :
      ¬(((a0 :: a1 :: a2 :: arest) : Table).isEmpty = true))] at hav'
    replace hav' : buildValues allow a0 a2 (fun _ => none) = some av' := hav'
    rw [hav] at hav'
    injection hav' with h'
    exact h'.symm
  subst hsame
  obtain ⟨hlen, hget⟩ := mapRows_get _ _ _ hmap
  refine ⟨newData, hnr, ?_⟩
  intro j old new hold hnew
  have hf := hget j old new hold hnew
  unfold spliceIfSentinel at hf
  cases hkey : old.get? admIdx with
  | none =>
    rw [hkey] at hf
    replace hf : (none : Option Row) = some new := hf
    cases hf
  | some key =>
    rw [hkey] at hf
    replace hf : (if key = some "allregions" then spliceRow av' r0 old else pure old) =
        some new := hf
    by_cases hsent : key = some "allregions"
    · rw [if_pos hsent] at hf
      obtain ⟨hlen2, hfr⟩ := spliceRow_frame _ r0 old new hf
      refine hfr i ?_
      intro s hs u hcontra
      rw [hh] at hs
      cases hs
      rw [hv] at hcontra
      cases hcontra
    · rw [if_neg hsent] at hf
      replace hf : some old = some new := hf
      cases hf
      rfl

/-- Witness for C10: the recorded value of the allow-listed header
`"val"` is `None`, and the sentinel-row cell below it keeps `"9"`. -/
theorem update_regional_none_preserved_witness :
    ∃ newRest,
      [[some "regionnames", some "val"], [some "#region+name", some "#v2"],
        [some "allregions", some "9"]] =
        [some "regionnames", some "val"] :: [some "#region+name", some "#v2"] ::
          newRest ∧
      ∀ j old new, [[some "allregions", some "9"]].get? j = some old →
        newRest.get? j = some new → new.get? 1 = old.get? 1 :=
  update_regional_none_preserved [[]] [some "regionnames", some "val"]
    [some "#region+name", some "#v2"] [[some "allregions", some "9"]]
    [some "val"] [some "#v"] [none] [] ["val"]
    (fun x => if x = "val" then some none else none)
    [[("regional",
      [[some "regionnames", some "val"], [some "#region+name", some "#v2"],
       [some "allregions", some "9"]])]]
    [[some "regionnames", some "val"], [some "#region+name", some "#v2"],
     [some "allregions", some "9"]]
    rfl rfl "val" 1 rfl (by decide) rfl

/-! ### Theorems about `update_allregions` -/

theorem indexOfC_lt (v : Cell) (l : Row) (i : Nat) (h : indexOfC v l = some i) :
    i < l.length := by
  induction l generalizing i with
  | nil => rw [indexOfC] at h; cases h
  | cons c cs ih =>
    rw [indexOfC] at h
    by_cases hc : c = v
    · rw [if_pos hc] at h
      cases h
      simp
    · rw [if_neg hc, Option.map_eq_some'] at h
      obtain ⟨j, hj, rfl⟩ := h
      exact Nat.succ_lt_succ (ih j hj)

theorem indexOfC_mem (v : Cell) (l : Row) (hm : v ∈ l) :
    ∃ i, indexOfC v l = some i := by
  induction l with
  | nil => cases hm
  | cons c cs ih =>
    rw [indexOfC]
    by_cases hc : c = v
    · rw [if_pos hc]
      exact ⟨0, rfl⟩
    · rw [if_neg hc]
      rcases List.mem_cons.1 hm with rfl | hm'
      · exact absurd rfl hc
      · obtain ⟨i, hi⟩ := ih hm'
        exact ⟨i + 1, by rw [hi]; rfl⟩

theorem spliceCols_total (ts hdrs row : Row) (h1 : ts.length ≤ hdrs.length)
    (h2 : ts.length ≤ row.length) : ∃ l, spliceCols ts hdrs row = some l := by
  induction ts generalizing hdrs row with
  | nil => exact ⟨[], rfl⟩
  | cons tag ts ih =>
    cases hdrs with
    | nil => simp at h1
    | cons hd hs =>
      cases row with
      | nil => simp at h2
      | cons c cs =>
        have h1' : ts.length ≤ hs.length := Nat.le_of_succ_le_succ h1
        have h2' : ts.length ≤ cs.length := Nat.le_of_succ_le_succ h2
        obtain ⟨l, hl⟩ := ih hs cs h1' h2'
        by_cases htag : tag = some "#region+name"
        · exact ⟨l, by rw [spliceCols, if_pos htag]; exact hl⟩
        · refine ⟨(hd, tag, c) :: l, ?_⟩
          rw [spliceCols, if_neg htag]
          show (spliceCols ts hs cs).bind (fun rest => some ((hd, tag, c) :: rest)) =
            some ((hd, tag, c) :: l)
          rw [hl]
          rfl

theorem spliceCols_src (ts hdrs row : Row) (l : List (Cell × Cell × Cell))
    (h : spliceCols ts hdrs row = some l) :
    ∀ x ∈ l, ∃ i, ts.get? i = some x.2.1 ∧ hdrs.get? i = some x.1 ∧
      row.get? i = some x.2.2 := by
  induction ts generalizing hdrs row l with
  | nil =>
    rw [spliceCols] at h
    cases h
    intro x hx
    cases hx
  | cons tag ts ih =>
    rw [spliceCols] at h
    by_cases htag : tag = some "#region+name"
    · rw [if_pos htag] at h
      intro x hx
      obtain ⟨i, h1, h2, h3⟩ := ih _ _ _ h x hx
      refine ⟨i + 1, h1, ?_, ?_⟩
      · rw [← tail_get?]
        exact h2
      · rw [← tail_get?]
        exact h3
    · rw [if_neg htag] at h
      cases hhd : hdrs.head? with
      | none =>
        rw [hhd] at h
        replace h : (none : Option (List (Cell × Cell × Cell))) = some l := h
        cases h
      | some hd =>
        rw [hhd] at h
        replace h : (row.head?).bind (fun v =>
            (spliceCols ts hdrs.tail row.tail).bind
              (fun rest => some ((hd, tag, v) :: rest))) = some l := h
        cases hv : row.head? with
        | none =>
          rw [hv] at h
          replace h : (none : Option (List (Cell × Cell × Cell))) = some l := h
          cases h
        | some c =>
          rw [hv] at h
          replace h : (spliceCols ts hdrs.tail row.tail).bind
              (fun rest => some ((hd, tag, c) :: rest)) = some l := h
          cases hrest : spliceCols ts hdrs.tail row.tail with
          | none =>
            rw [hrest] at h
            replace h : (none : Option (List (Cell × Cell × Cell))) = some l := h
            cases h
          | some rest =>
            rw [hrest] at h
            replace h : some ((hd, tag, c) :: rest) = some l := h
            cases h
            intro x hx
            rcases List.mem_cons.1 hx with rfl | hx'
            · refine ⟨0, rfl, ?_, ?_⟩
              · rw [head?_eq_get?] at hhd
                exact hhd
              · rw [head?_eq_get?] at hv
                exact hv
            · obtain ⟨i, h1, h2, h3⟩ := ih _ _ _ hrest x hx'
              refine ⟨i + 1, h1, ?_, ?_⟩
              · rw [← tail_get?]
                exact h2
              · rw [← tail_get?]
                exact h3

theorem collectIns_total (admIdx : Nat) (t1 r0 : Row) (rows : Table)
    (hA : ∀ r ∈ rows, admIdx < r.length)
    (hT : ∀ r ∈ rows, t1.length ≤ r.length)
    (hH : t1.length ≤ r0.length) :
    ∃ l, collectIns admIdx t1 r0 rows = some l := by
  induction rows with
  | nil => exact ⟨[], rfl⟩
  | cons row rest ih =>
    obtain ⟨key, hkey⟩ := get?_of_lt row admIdx (hA row (List.mem_cons_self _ _))
    obtain ⟨there, hthere⟩ := ih (fun r hr => hA r (List.mem_cons_of_mem _ hr))
      (fun r hr => hT r (List.mem_cons_of_mem _ hr))
    by_cases hall : key = some "ALL"
    · obtain ⟨here, hhere⟩ :=
        spliceCols_total t1 r0 row hH (hT row (List.mem_cons_self _ _))
      refine ⟨here ++ there, ?_⟩
      rw [collectIns, hkey]
      show (if key = some "ALL" then
          (spliceCols t1 r0 row).bind (fun here' =>
            (collectIns admIdx t1 r0 rest).bind (fun there' => some (here' ++ there')))
        else
          (collectIns admIdx t1 r0 rest).bind (fun there' => some ([] ++ there'))) =
        some (here ++ there)
      rw [if_pos hall, hhere, hthere]
      rfl
    · refine ⟨there, ?_⟩
      rw [collectIns, hkey]
      show (if key = some "ALL" then
          (spliceCols t1 r0 row).bind (fun here' =>
            (collectIns admIdx t1 r0 rest).bind (fun there' => some (here' ++ there')))
        else
          (collectIns admIdx t1 r0 rest).bind (fun there' => some ([] ++ there'))) =
        some there
      rw [if_neg hall, hthere]
      rfl

theorem collectIns_src (admIdx : Nat) (t1 r0 : Row) (rows : Table)
    (l : List (Cell × Cell × Cell)) (h : collectIns admIdx t1 r0 rows = some l) :
    ∀ x ∈ l, ∃ row ∈ rows, row.get? admIdx = some (some "ALL") ∧
      ∃ i, t1.get? i = some x.2.1 ∧ r0.get? i = some x.1 ∧ row.get? i = some x.2.2 := by
  induction rows generalizing l with
  | nil =>
    rw [collectIns] at h
    cases h
    intro x hx
    cases hx
  | cons row rest ih =>
    rw [collectIns] at h
    cases hkey : row.get? admIdx with
    | none =>
      rw [hkey] at h
      replace h : (none : Option (List (Cell × Cell × Cell))) = some l := h
      cases h
    | some key =>
      rw [hkey] at h
      replace h : (if key = some "ALL" then
          (spliceCols t1 r0 row).bind (fun here =>
            (collectIns admIdx t1 r0 rest).bind (fun there => some (here ++ there)))
        else
          (collectIns admIdx t1 r0 rest).bind (fun there => some ([] ++ there))) =
          some l := h
      by_cases hall : key = some "ALL"
      · rw [if_pos hall] at h
        cases hhere : spliceCols t1 r0 row with
        | none =>
          rw [hhere] at h
          replace h : (none : Option (List (Cell × Cell × Cell))) = some l := h
          cases h
        | some here =>
          rw [hhere] at h
          replace h : (collectIns admIdx t1 r0 rest).bind
              (fun there => some (here ++ there)) = some l := h
          cases hthere : collectIns admIdx t1 r0 rest with
          | none =>
            rw [hthere] at h
            replace h : (none : Option (List (Cell × Cell × Cell))) = some l := h
            cases h
          | some there =>
            rw [hthere] at h
            replace h : some (here ++ there) = some l := h
            cases h
            intro x hx
            rcases List.mem_append.1 hx with hx' | hx'
            · obtain ⟨i, h1, h2, h3⟩ := spliceCols_src _ _ _ _ hhere x hx'
              exact ⟨row, List.mem_cons_self _ _, by rw [hkey, hall], i, h1, h2, h3⟩
            · obtain ⟨row', hr', hkey', hi⟩ := ih _ hthere x hx'
              exact ⟨row', List.mem_cons_of_mem _ hr', hkey', hi⟩
      · rw [if_neg hall] at h
        replace h : (collectIns admIdx t1 r0 rest).bind
            (fun there => some ([] ++ there)) = some l := h
        cases hthere : collectIns admIdx t1 r0 rest with
        | none =>
          rw [hthere] at h
          replace h : (none : Option (List (Cell × Cell × Cell))) = some l := h
          cases h
        | some there =>
          rw [hthere] at h
          replace h : some there = some l := h
          cases h
          intro x hx
          obtain ⟨row', hr', hkey', hi⟩ := ih _ hthere x hx
          exact ⟨row', List.mem_cons_of_mem _ hr', hkey', hi⟩

/-- C6: for an allregions table whose three rows have equal length and a
rectangular regions table (with its `#region+name` tag present),
`update_allregions` succeeds, prepending to the three rows lists of equal
length whose entries at each position are the header, HXL tag and `ALL`
row value read from one common column index of the regions table: the
1:1 positional alignment of headers, tags and values is preserved. -/
theorem update_allregions_aligned (outputs : List Trace) (h t v : Row)
    (r0 t1 : Row) (rest : Table)
    (hl1 : h.length = t.length) (hl2 : t.length = v.length)
    (rect : ∀ r ∈ r0 :: t1 :: rest, r.length = t1.length)
    (htag : (some "#region+name") ∈ t1) :
    ∃ (outs : List Trace) (admIdx : Nat) (ins : List (Cell × Cell × Cell)),
      indexOfC (some "#region+name") t1 = some admIdx ∧
      update_allregions outputs [h, t, v] (r0 :: t1 :: rest) =
        some (outs, [ins.map (·.1) ++ h, ins.map (·.2.1) ++ t, ins.map (·.2.2) ++ v]) ∧
      (ins.map (·.1) ++ h).length = (ins.map (·.2.1) ++ t).length ∧
      (ins.map (·.2.1) ++ t).length = (ins.map (·.2.2) ++ v).length ∧
      ∀ x ∈ ins, ∃ row ∈ rest, row.get? admIdx = some (some "ALL") ∧
        ∃ i, t1.get? i = some x.2.1 ∧ r0.get? i = some x.1 ∧
          row.get? i = some x.2.2 := by
  obtain ⟨admIdx, hidx⟩ := indexOfC_mem _ _ htag
  have hlt : admIdx < t1.length := indexOfC_lt _ _ _ hidx
  have hA : ∀ r ∈ rest, admIdx < r.length := fun r hr => by
    rw [rect r (List.mem_cons_of_mem _ (List.mem_cons_of_mem _ hr))]
    exact hlt
  have hT : ∀ r ∈ rest, t1.length ≤ r.length := fun r hr =>
    Nat.le_of_eq (rect r (List.mem_cons_of_mem _ (List.mem_cons_of_mem _ hr))).symm
  have hH : t1.length ≤ r0.length :=
    Nat.le_of_eq (rect r0 (List.mem_cons_self _ _)).symm
  obtain ⟨ins, hins⟩ := collectIns_total admIdx t1 r0 rest hA hT hH
  refine ⟨update_tab outputs "allregions"
      [ins.map (·.1) ++ h, ins.map (·.2.1) ++ t, ins.map (·.2.2) ++ v],
    admIdx, ins, hidx, ?_, ?_, ?_, ?_⟩
  · show (indexOfC (some "#region+name") t1).bind (fun aI =>
        (collectIns aI t1 r0 rest).bind (fun ins' =>
          some (update_tab outputs "allregions"
            [ins'.map (·.1) ++ h, ins'.map (·.2.1) ++ t, ins'.map (·.2.2) ++ v],
            ([ins'.map (·.1) ++ h, ins'.map (·.2.1) ++ t,
              ins'.map (·.2.2) ++ v] : Table)))) =
      some (update_tab outputs "allregions"
        [ins.map (·.1) ++ h, ins.map (·.2.1) ++ t, ins.map (·.2.2) ++ v],
        [ins.map (·.1) ++ h, ins.map (·.2.1) ++ t, ins.map (·.2.2) ++ v])
    rw [hidx]
    show (collectIns admIdx t1 r0 rest).bind (fun ins' =>
        some (update_tab outputs "allregions"
          [ins'.map (·.1) ++ h, ins'.map (·.2.1) ++ t, ins'.map (·.2.2) ++ v],
          ([ins'.map (·.1) ++ h, ins'.map (·.2.1) ++ t,
            ins'.map (·.2.2) ++ v] : Table))) = _
    rw [hins]
    rfl
  · simp [hl1]
  · simp [hl1, hl2]
  · exact collectIns_src _ _ _ _ _ hins

/-- Witness for C6 at a concrete one-column allregions table and a
regions table with one `ALL` row. -/
theorem update_allregions_aligned_witness :
    ∃ (outs : List Trace) (admIdx : Nat) (ins : List (Cell × Cell × Cell)),
      indexOfC (some "#region+name") [some "#region+name", some "#b"] = some admIdx ∧
      update_allregions [[]] [[some "x"], [some "#x"], [some "1"]]
          ([some "regionnames", some "a"] :: [some "#region+name", some "#b"] ::
            [[some "ALL", some "5"]]) =
        some (outs, [ins.map (·.1) ++ [some "x"], ins.map (·.2.1) ++ [some "#x"],
          ins.map (·.2.2) ++ [some "1"]]) ∧
      (ins.map (·.1) ++ [some "x"]).length =
        (ins.map (·.2.1) ++ [some "#x"]).length ∧
      (ins.map (·.2.1) ++ [some "#x"]).length =
        (ins.map (·.2.2) ++ [some "1"]).length ∧
      ∀ x ∈ ins, ∃ row ∈ [[some "ALL", some "5"]],
        row.get? admIdx = some (some "ALL") ∧
        ∃ i, [some "#region+name", some "#b"].get? i = some x.2.1 ∧
          [some "regionnames", some "a"].get? i = some x.1 ∧
          row.get? i = some x.2.2 :=
  update_allregions_aligned [[]] [some "x"] [some "#x"] [some "1"]
    [some "regionnames", some "a"] [some "#region+name", some "#b"]
    [[some "ALL", some "5"]] rfl rfl (by decide) (by decide)

end ArabViz
